import Mathlib

/-!
Shallow embedding of the transcription/note application (React + TypeScript
sources) for checking its specification.  Strings are modelled as lists of
characters; the JavaScript regular-expression passes of the source are
translated into structurally recursive character-list transformations.
-/

set_option maxRecDepth 4000

/-- Coercion from a string literal to the character-list model. -/
def str (s : String) : List Char := s.data

/-- Whitespace test for the JS regex class backslash-s, restricted to the
ASCII whitespace characters that can occur in transcripts. -/
def isWs (c : Char) : Bool :=
  c = ' ' || c = '\t' || c = '\n' || c = '\r'

/-- Membership in the sentence-punctuation class of the source regexes,
the four characters period, comma, bang and question mark. -/
def isPunct (c : Char) : Bool :=
  c = '.' || c = ',' || c = '!' || c = '?'

/-- Head test used by the regex passes: the list starts with a space. -/
def headIsSpace : List Char → Bool
  | c :: _ => c = ' '
  | [] => false

/-- Head test: the list starts with a whitespace character. -/
def headIsWs : List Char → Bool
  | c :: _ => isWs c
  | [] => false

/-- Head test: the list starts with a punctuation character. -/
def headIsPunct : List Char → Bool
  | c :: _ => isPunct c
  | [] => false

/-- First pass of cleanText: the JS replace of one-or-more whitespace by a
single space.  Each maximal whitespace run collapses to one space: a
whitespace character merges into the following result when that result
already starts with a space, otherwise it becomes the single space of its
run. -/
def collapseWs : List Char → List Char
  | [] => []
  | c :: cs =>
    let r := collapseWs cs
    if isWs c then
      if headIsSpace r then r else ' ' :: r
    else c :: r

/-- Second pass of cleanText: the JS global replace of a punctuation
character followed by a non-whitespace character by the pair separated by
one space.  The scan resumes after each two-character match, as the JS
engine does. -/
def spaceAfterPunct : List Char → List Char
  | [] => []
  | [c] => [c]
  | c :: d :: rest =>
    if isPunct c && !isWs d then
      c :: ' ' :: d :: spaceAfterPunct rest
    else
      c :: spaceAfterPunct (d :: rest)

/-- Third pass of cleanText: the JS global replace deleting a whitespace
run that immediately precedes a punctuation character.  A whitespace
character is dropped exactly when everything up to the next
non-whitespace has been dropped and that non-whitespace is punctuation. -/
def stripWsBeforePunct : List Char → List Char
  | [] => []
  | c :: cs =>
    let r := stripWsBeforePunct cs
    if isWs c then
      if headIsPunct r then r else c :: r
    else c :: r

/-- Boolean pairwise-adjacent check on a character list. -/
def pairwiseB (P : Char → Char → Bool) : List Char → Bool
  | a :: b :: t => P a b && pairwiseB P (b :: t)
  | _ => true

/-- Absence of two adjacent whitespace characters, the shape left by a
collapsed text. -/
def noAdjWs : List Char → Bool :=
  pairwiseB (fun a b => !(isWs a && isWs b))

/-- Absence of a whitespace character immediately before a punctuation
character. -/
def noWsBeforePunct : List Char → Bool :=
  pairwiseB (fun a b => !(isWs a && isPunct b))

/-- Trailing-whitespace removal, the right half of JS String.trim. -/
def trimRight : List Char → List Char
  | [] => []
  | c :: cs =>
    match trimRight cs with
    | [] => if isWs c then [] else [c]
    | r => c :: r

/-- JS String.trim on the character-list model. -/
def trimWs (l : List Char) : List Char :=
  trimRight (l.dropWhile isWs)

/-- The cleanText helper of NoteEditor (both variants share it verbatim):
collapse whitespace runs, put a space between punctuation and a following
non-whitespace, delete whitespace before punctuation, then trim. -/
def cleanText (l : List Char) : List Char :=
  trimWs (stripWsBeforePunct (spaceAfterPunct (collapseWs l)))

/-- State carried by the transcript merger: the last transcript seen
(lastTranscriptRef) and the current document content. -/
structure MergerState where
  prevTranscript : List Char
  content : List Char
deriving DecidableEq

/-- The handleTranscriptionUpdate callback of the string-content NoteEditor
variant: on a transcript different from the last one, slice off the prefix
of the previous length, clean it, and append it to the content after a
single separating space when the content is non-empty; then remember the
transcript. -/
def handleTranscriptionUpdate (st : MergerState) (newTranscript : List Char) :
    MergerState :=
  if newTranscript = st.prevTranscript then st
  else
    let newContent := newTranscript.drop st.prevTranscript.length
    let cleanedContent := cleanText newContent
    let updatedContent :=
      st.content ++ (if st.content = [] then [] else [' ']) ++ cleanedContent
    { prevTranscript := newTranscript, content := updatedContent }

/-- An immutable NoteVersion record: content snapshot, timestamp from
Date.now, human description. -/
structure NoteVersion where
  content : List Char
  timestamp : Nat
  description : List Char
deriving DecidableEq

/-- A Note record of the App component: id, title, serialized content,
tag list and version list. -/
structure Note where
  id : List Char
  title : List Char
  content : List Char
  tags : List (List Char)
  versions : List NoteVersion
deriving DecidableEq

/-- The handleUpdateNote callback of App: map over the collection replacing
every note whose id equals the id of the supplied note by that note. -/
def handleUpdateNote (notes : List Note) (updatedNote : Note) : List Note :=
  notes.map (fun note => if note.id = updatedNote.id then updatedNote else note)

/-- The handleSaveVersion callback of App: find the note by id, append a
snapshot of its current content to its versions and route the result
through handleUpdateNote; with no matching note nothing happens.  The JS
Date.now call is passed in as the argument now. -/
def handleSaveVersion (notes : List Note) (noteId : List Char)
    (description : List Char) (now : Nat) : List Note :=
  match notes.find? (fun n => n.id = noteId) with
  | some note =>
      handleUpdateNote notes
        { note with
            versions := note.versions ++ [⟨note.content, now, description⟩] }
  | none => notes

/-- The handleRestoreVersion callback of App: find the note by id, replace
its current content by the snapshot content and route the result through
handleUpdateNote; with no matching note nothing happens. -/
def handleRestoreVersion (notes : List Note) (noteId : List Char)
    (version : NoteVersion) : List Note :=
  match notes.find? (fun n => n.id = noteId) with
  | some note => handleUpdateNote notes { note with content := version.content }
  | none => notes

/-- A parsed record of an imported notes file.  The JSON round trip of the
plain note records is modelled as the identity on this record type; a field
that may be missing from a legacy file is an Option, with none standing for
absence.  The import validation that every record owns id, title and
content always passes on this shape. -/
structure RawNote where
  id : List Char
  title : List Char
  content : List Char
  tags : Option (List (List Char))
  versions : Option (List NoteVersion)
deriving DecidableEq

/-- The per-record migration step of handleImportNotes: spread the record
and default tags and versions to the empty array when absent.  A present
field is kept unchanged, as the JS or-default does on an array value. -/
def migrateRaw (r : RawNote) : Note :=
  { id := r.id, title := r.title, content := r.content,
    tags := r.tags.getD [], versions := r.versions.getD [] }

/-- The handleExportNotes serialization: every stored note is written out
with all five fields present. -/
def handleExportNotes (notes : List Note) : List RawNote :=
  notes.map (fun n =>
    { id := n.id, title := n.title, content := n.content,
      tags := some n.tags, versions := some n.versions })

/-- The import handler on a file that passed validation: migrate every
record and hand the migrated list to updateNotes, which replaces the
stored collection without consulting the previous notes state. -/
def handleImportNotes (notes : List Note) (file : List RawNote) : List Note :=
  let migratedNotes := file.map migrateRaw
  migratedNotes

/-- Lower-casing of a character as JS toLowerCase acts on the ASCII
letters appearing in the sources. -/
def toLowerChar (c : Char) : Char :=
  if 'A' ≤ c && c ≤ 'Z' then Char.ofNat (c.toNat + 32) else c

/-- Lower-casing of a character list. -/
def lowerCase (l : List Char) : List Char := l.map toLowerChar

/-- Boolean prefix test: does the second list start with the first. -/
def isPrefixB : List Char → List Char → Bool
  | [], _ => true
  | _ :: _, [] => false
  | a :: as, b :: bs => a = b && isPrefixB as bs

/-- The JS String.includes of the search code: the haystack contains the
needle as a contiguous substring. -/
def containsB : List Char → List Char → Bool
  | [], needle => needle.isEmpty
  | c :: t, needle => isPrefixB needle (c :: t) || containsB t needle

/-- The per-note predicate of the filteredNotes computation in App: the
query, lower-cased, occurs in the lower-cased title, the lower-cased
stored content, or some lower-cased tag. -/
def noteMatches (searchQuery : List Char) (note : Note) : Bool :=
  let searchLower := lowerCase searchQuery
  containsB (lowerCase note.title) searchLower ||
  containsB (lowerCase note.content) searchLower ||
  note.tags.any (fun tag => containsB (lowerCase tag) searchLower)

/-- The filteredNotes value of App: the notes passing noteMatches. -/
def filteredNotes (notes : List Note) (searchQuery : List Char) : List Note :=
  notes.filter (noteMatches searchQuery)

/-- Helper for the tag-stripping regex of getWordCount: given the text
after an opening angle bracket, drop up to and including the first closing
angle bracket, or report that none exists. -/
def afterTagClose : List Char → Option (List Char)
  | [] => none
  | c :: cs => if c = '>' then some cs else afterTagClose cs

theorem afterTagClose_length :
    ∀ l r, afterTagClose l = some r → r.length < l.length := by
  intro l
  induction l with
  | nil => intro r h; simp [afterTagClose] at h
  | cons c cs ih =>
    intro r h
    simp only [afterTagClose] at h
    by_cases hc : c = '>'
    · simp [hc] at h
      subst h
      simp
    · simp [hc] at h
      exact Nat.lt_trans (ih r h) (by simp)

/-- The plain-text extraction the editor component itself uses in
getWordCount: the JS global replace of an angle-bracketed tag, a less-than
sign followed by characters other than greater-than and a closing
greater-than, by a single space.  A less-than with no later greater-than
matches nothing and the remainder is kept verbatim. -/
def stripHtml : List Char → List Char
  | [] => []
  | c :: cs =>
    if c = '<' then
      match h : afterTagClose cs with
      | some rest => ' ' :: stripHtml rest
      | none => c :: cs
    else c :: stripHtml cs
termination_by l => l.length
decreasing_by
  · exact Nat.lt_trans (afterTagClose_length cs rest h) (by simp)
  · simp

/-- Modelled from the spec: the transcription orchestrator state machine of
the useTranscriber hook, which is not among the sources (only its callers,
such as handleTranscribeClick, are).  States follow section 4.3 of the
specification. -/
inductive TranscriberState
  | idle
  | modelLoading
  | ready
  | transcribing
  | error
deriving DecidableEq

/-- Modelled from the spec: the outcome of a start call on the
orchestrator. -/
inductive StartOutcome
  | started
  | sessionBusy
  | notReady
deriving DecidableEq

/-- Modelled from the spec: the start operation of the missing
useTranscriber hook.  A start from Ready begins the one transcription; a
start while Transcribing fails fast with SessionBusy and leaves the state
untouched, the only mutual exclusion in the system; any other state is not
ready to accept a request. -/
def startSession : TranscriberState → TranscriberState × StartOutcome
  | .ready => (.transcribing, .started)
  | .transcribing => (.transcribing, .sessionBusy)
  | s => (s, .notReady)

/-- Modelled from the spec: the fixed target sample rate
Constants.SAMPLING_RATE (the constants module is not among the sources),
sixteen kilohertz per section 3 of the specification. -/
def SAMPLING_RATE : Nat := 16000

/-- Decoded-audio characteristics of a source before ingestion. -/
structure SourceAudio where
  sampleRate : Nat
  numberOfChannels : Nat
deriving DecidableEq

/-- The relevant characteristics of a Web Audio AudioBuffer. -/
structure AudioBufferM where
  sampleRate : Nat
  numberOfChannels : Nat
deriving DecidableEq

/-- The decodeAudioData call of an AudioContext constructed with an
explicit sample rate, per its documented semantics: the decoded buffer is
resampled to the context rate while the channel count of the source
material is preserved. -/
def decodeAudioData (ctxSampleRate : Nat) (src : SourceAudio) : AudioBufferM :=
  { sampleRate := ctxSampleRate, numberOfChannels := src.numberOfChannels }

/-- The decode step of setAudioFromDownload: a context at the fixed
SAMPLING_RATE decodes the downloaded bytes. -/
def setAudioFromDownload (src : SourceAudio) : AudioBufferM :=
  decodeAudioData SAMPLING_RATE src

/-- The decode step of setAudioFromRecording: a context at the fixed
SAMPLING_RATE decodes the recorded bytes. -/
def setAudioFromRecording (src : SourceAudio) : AudioBufferM :=
  decodeAudioData SAMPLING_RATE src

/-- The decode step of handleFileUpload: a context at the fixed
SAMPLING_RATE decodes the uploaded bytes. -/
def handleFileUpload (src : SourceAudio) : AudioBufferM :=
  decodeAudioData SAMPLING_RATE src

/-- Sample note with id one, used to instantiate theorems. -/
def noteA : Note := ⟨str "1", str "alpha", str "hello", [], []⟩

/-- Sample note with id two, used to instantiate theorems. -/
def noteB : Note := ⟨str "2", str "beta", str "world", [str "work"], []⟩

/-- Sample legacy import record lacking tags and versions. -/
def rawLegacy : RawNote := ⟨str "9", str "old", str "txt", none, none⟩

/-- Sample merger state with a non-empty document. -/
def mergeSt : MergerState := ⟨str "hello", str "doc"⟩

/-- Sample note whose stored content is serialized rich text. -/
def noteHtml : Note := ⟨str "7", str "t", str "<p>hi</p>", [], []⟩

/-- Sample note tagged meeting. -/
def noteMeeting : Note := ⟨str "3", str "x", str "", [str "meeting"], []⟩

/-- Sample note tagged memo. -/
def noteMemo : Note := ⟨str "4", str "y", str "", [str "memo"], []⟩

/-- C5: delivering a transcript equal to the stored previous transcript is
a no-op on the merger state, and replaying any emission a second time
inserts no additional text. -/
theorem c5_duplicate_emission_no_op (st : MergerState) (t : List Char) :
    handleTranscriptionUpdate st st.prevTranscript = st ∧
    handleTranscriptionUpdate (handleTranscriptionUpdate st t) t
      = handleTranscriptionUpdate st t := by
  constructor
  · simp [handleTranscriptionUpdate]
  · by_cases h : t = st.prevTranscript
    · subst h; simp [handleTranscriptionUpdate]
    · simp [handleTranscriptionUpdate, h]

/-- C9 counterexample: the channel count of the ingested buffer follows
the source material instead of a fixed target; a stereo download stays
stereo while a mono recording stays mono, so the count is not the fixed
configuration regardless of source. -/
theorem c9_counterexample :
    (setAudioFromDownload ⟨44100, 2⟩).numberOfChannels = 2 ∧
    (handleFileUpload ⟨48000, 2⟩).numberOfChannels = 2 ∧
    (setAudioFromRecording ⟨44100, 1⟩).numberOfChannels = 1 ∧
    (setAudioFromDownload ⟨44100, 2⟩).numberOfChannels ≠
      (setAudioFromRecording ⟨44100, 1⟩).numberOfChannels := by
  refine ⟨rfl, rfl, rfl, ?_⟩
  decide

/-- C9 amended: every ingestion path decodes through a context at the
fixed SAMPLING_RATE, so the output sample rate equals the target for all
three source kinds, while the channel count is inherited from the
source. -/
theorem c9_sample_rate_normalized (src : SourceAudio) :
    (setAudioFromDownload src).sampleRate = SAMPLING_RATE ∧
    (setAudioFromRecording src).sampleRate = SAMPLING_RATE ∧
    (handleFileUpload src).sampleRate = SAMPLING_RATE ∧
    (setAudioFromDownload src).numberOfChannels = src.numberOfChannels ∧
    (setAudioFromRecording src).numberOfChannels = src.numberOfChannels ∧
    (handleFileUpload src).numberOfChannels = src.numberOfChannels :=
  ⟨rfl, rfl, rfl, rfl, rfl, rfl⟩

/-- C10: a successful import replaces the stored collection with exactly
the migrated records of the file, independently of the previous store, and
any previously stored note absent from the migrated file is gone. -/
theorem c10_import_replaces_store (store altStore : List Note)
    (file : List RawNote) (n : Note) :
    handleImportNotes store file = file.map migrateRaw ∧
    handleImportNotes store file = handleImportNotes altStore file ∧
    (n ∈ handleImportNotes store file ↔ ∃ r ∈ file, migrateRaw r = n) ∧
    (n ∈ store → n ∉ file.map migrateRaw → n ∉ handleImportNotes store file) := by
  refine ⟨rfl, rfl, ?_, ?_⟩
  · simp [handleImportNotes]
  · intro _ hnot hmem
    exact hnot hmem

/-- C10 witness at a concrete store and file. -/
theorem c10_witness :
    noteA ∈ [noteA] ∧ noteA ∉ [rawLegacy].map migrateRaw ∧
    noteA ∉ handleImportNotes [noteA] [rawLegacy] :=
  ⟨by decide, by decide,
    (c10_import_replaces_store [noteA] [] [rawLegacy] noteA).2.2.2
      (by decide) (by decide)⟩

/-- C8: starting while a session is transcribing fails fast with
SessionBusy and leaves the state untouched, and a session only ever starts
from the Ready state, so at most one transcription runs at a time. -/
theorem c8_second_start_fails_busy :
    startSession .transcribing = (.transcribing, .sessionBusy) ∧
    ∀ s s' r, startSession s = (s', r) → r = .started →
      s = .ready ∧ s' = .transcribing := by
  refine ⟨rfl, ?_⟩
  intro s s' r h hr
  cases s <;> simp_all [startSession]

/-- C8 witness: the one transition that does start a session. -/
theorem c8_witness :
    startSession .ready = (.transcribing, .started) ∧
    (TranscriberState.ready = .ready ∧
     TranscriberState.transcribing = .transcribing) :=
  ⟨rfl, (c8_second_start_fails_busy).2 .ready .transcribing .started rfl rfl⟩

/-- C3 counterexample: updating with a note whose id is absent from the
collection silently returns the collection unchanged; no NotFound failure
exists in the code. -/
theorem c3_counterexample :
    (∀ m ∈ [noteA], m.id ≠ noteB.id) ∧
    handleUpdateNote [noteA] noteB = [noteA] := by
  constructor
  · decide
  · decide

/-- C3 amended: update replaces the note carrying the given id wholesale
by the supplied note and leaves every other note unchanged; when no note
carries the id the collection is returned unchanged, with no failure and
no timestamp bookkeeping. -/
theorem c3_update_replaces_or_ignores (notes : List Note) (u : Note) :
    ((∀ m ∈ notes, m.id ≠ u.id) → handleUpdateNote notes u = notes) ∧
    List.Forall₂
      (fun m m' => (m.id = u.id → m' = u) ∧ (m.id ≠ u.id → m' = m))
      notes (handleUpdateNote notes u) := by
  constructor
  · intro h
    induction notes with
    | nil => rfl
    | cons a t ih =>
      have ha := h a (by simp)
      have ht : ∀ m ∈ t, m.id ≠ u.id := fun m hm => h m (by simp [hm])
      simp only [handleUpdateNote, List.map_cons] at *
      rw [if_neg ha]
      exact congrArg (a :: ·) (ih ht)
  · unfold handleUpdateNote
    rw [List.forall₂_map_right_iff]
    rw [List.forall₂_same]
    intro x _
    constructor
    · intro h; simp [h]
    · intro h; simp [h]

/-- C3 witness at a concrete collection with the id absent. -/
theorem c3_witness :
    (∀ m ∈ [noteA], m.id ≠ noteB.id) ∧
    handleUpdateNote [noteA] noteB = [noteA] ∧
    List.Forall₂
      (fun m m' => (m.id = noteB.id → m' = noteB) ∧ (m.id ≠ noteB.id → m' = m))
      [noteA] (handleUpdateNote [noteA] noteB) :=
  ⟨by decide, (c3_update_replaces_or_ignores [noteA] noteB).1 (by decide),
    (c3_update_replaces_or_ignores [noteA] noteB).2⟩

/-- C4: importing the export of any note collection yields the same
collection, and importing a legacy file whose records lack tags and
versions succeeds with both fields defaulted to the empty array. -/
theorem c4_import_export_roundtrip (store notes : List Note)
    (file : List RawNote)
    (hleg : ∀ r ∈ file, r.tags = none ∧ r.versions = none) :
    handleImportNotes store (handleExportNotes notes) = notes ∧
    handleImportNotes store file
      = file.map (fun r =>
          { id := r.id, title := r.title, content := r.content,
            tags := [], versions := [] }) := by
  constructor
  · unfold handleImportNotes handleExportNotes
    rw [List.map_map]
    have h : List.map (migrateRaw ∘ fun n : Note =>
        ({ id := n.id, title := n.title, content := n.content,
           tags := some n.tags, versions := some n.versions } : RawNote)) notes
        = List.map id notes :=
      List.map_congr_left (fun n _ => rfl)
    rw [h, List.map_id]
  · unfold handleImportNotes
    apply List.map_congr_left
    intro r hr
    obtain ⟨h1, h2⟩ := hleg r hr
    simp [migrateRaw, h1, h2]

/-- C4 witness at a concrete collection and a concrete legacy file. -/
theorem c4_witness :
    (∀ r ∈ [rawLegacy], r.tags = none ∧ r.versions = none) ∧
    (handleImportNotes [] (handleExportNotes [noteA, noteB]) = [noteA, noteB] ∧
     handleImportNotes [] [rawLegacy]
       = [rawLegacy].map (fun r =>
           { id := r.id, title := r.title, content := r.content,
             tags := [], versions := [] })) :=
  ⟨by decide,
    c4_import_export_roundtrip [] [noteA, noteB] [rawLegacy] (by decide)⟩

/-- C1 counterexample: on a transcript that does not start with the stored
previous one, the code does not treat the whole transcript as the delta;
the slice by the previous length yields the empty delta here, so nothing
of the new text reaches the document and no anomaly handling exists. -/
theorem c1_counterexample :
    handleTranscriptionUpdate ⟨str "hello", str "x"⟩ (str "bye")
      = ⟨str "bye", str "x "⟩ ∧
    containsB (str "x ") (str "bye") = false := by
  constructor
  · decide
  · decide

/-- C1 amended: for a transcript differing from the stored one the merger
always inserts the cleaned slice by the previous length: on append-only
growth this is exactly the new suffix, and when the new transcript does
not extend the previous one the same length slice is still used, with no
anomaly branch. -/
theorem c1_delta_by_length_slice (st : MergerState) (t suffix : List Char)
    (hs : suffix ≠ []) (ht : t ≠ st.prevTranscript) :
    (handleTranscriptionUpdate st (st.prevTranscript ++ suffix)).content
      = st.content ++ (if st.content = [] then [] else [' '])
          ++ cleanText suffix ∧
    (handleTranscriptionUpdate st t).content
      = st.content ++ (if st.content = [] then [] else [' '])
          ++ cleanText (t.drop st.prevTranscript.length) ∧
    (handleTranscriptionUpdate st t).prevTranscript = t := by
  refine ⟨?_, ?_, ?_⟩
  · have hne : st.prevTranscript ++ suffix ≠ st.prevTranscript := by
      intro h
      have hlen := congrArg List.length h
      simp at hlen
      exact hs hlen
    simp [handleTranscriptionUpdate, hne, List.drop_left]
  · simp [handleTranscriptionUpdate, ht]
  · simp [handleTranscriptionUpdate, ht]

/-- C1 witness at a concrete state, suffix and non-extending transcript. -/
theorem c1_witness :
    str " world" ≠ ([] : List Char) ∧
    str "bye" ≠ mergeSt.prevTranscript ∧
    ((handleTranscriptionUpdate mergeSt (mergeSt.prevTranscript ++ str " world")).content
       = mergeSt.content ++ (if mergeSt.content = [] then [] else [' '])
           ++ cleanText (str " world") ∧
     (handleTranscriptionUpdate mergeSt (str "bye")).content
       = mergeSt.content ++ (if mergeSt.content = [] then [] else [' '])
           ++ cleanText ((str "bye").drop mergeSt.prevTranscript.length) ∧
     (handleTranscriptionUpdate mergeSt (str "bye")).prevTranscript = str "bye") :=
  ⟨by decide, by decide,
    c1_delta_by_length_slice mergeSt (str "bye") (str " world")
      (by decide) (by decide)⟩

/-- With pairwise distinct ids, the note that find locates by id is the
only member of the collection carrying that id. -/
theorem find_unique_by_id (notes : List Note) (noteId : List Char)
    (n₀ m : Note) (hnd : (notes.map Note.id).Nodup)
    (hfind : notes.find? (fun n => n.id = noteId) = some n₀)
    (hm : m ∈ notes) (hid : m.id = noteId) : m = n₀ := by
  induction notes with
  | nil => cases hm
  | cons a t ih =>
    rw [List.map_cons, List.nodup_cons] at hnd
    obtain ⟨hna, hnt⟩ := hnd
    by_cases ha : a.id = noteId
    · rw [List.find?_cons_of_pos _ (by simp [ha])] at hfind
      injection hfind with h₀
      subst h₀
      rcases List.mem_cons.mp hm with h | h
      · exact h
      · exfalso
        apply hna
        have hmem : m.id ∈ t.map Note.id := List.mem_map_of_mem Note.id h
        rwa [hid, ← ha] at hmem
    · rw [List.find?_cons_of_neg _ (by simp [ha])] at hfind
      rcases List.mem_cons.mp hm with h | h
      · exfalso
        rw [h] at hid
        exact ha hid
      · exact ih hnt hfind h

/-- C2: with pairwise distinct ids, saveVersion appends exactly one
snapshot of the current content to the addressed note and leaves every
other note and every existing snapshot untouched, so a versions length
never shrinks; restoreVersion overwrites only the current content, leaves
every versions sequence unchanged and creates no snapshot. -/
theorem c2_versions_append_only (notes : List Note) (noteId : List Char)
    (description : List Char) (now : Nat) (version : NoteVersion)
    (hnd : (notes.map Note.id).Nodup) :
    List.Forall₂ (fun m m' =>
        m.versions.length ≤ m'.versions.length ∧
        (m.id ≠ noteId → m' = m) ∧
        (m.id = noteId →
          m' = { m with
                   versions := m.versions ++ [⟨m.content, now, description⟩] }))
      notes (handleSaveVersion notes noteId description now) ∧
    List.Forall₂ (fun m m' =>
        m'.versions = m.versions ∧
        (m.id ≠ noteId → m' = m) ∧
        (m.id = noteId → m' = { m with content := version.content }))
      notes (handleRestoreVersion notes noteId version) := by
  constructor
  · unfold handleSaveVersion
    cases hfind : notes.find? (fun n => n.id = noteId) with
    | none =>
      rw [List.forall₂_same]
      intro m hm
      have hne : ¬ m.id = noteId := by
        have := List.find?_eq_none.mp hfind m hm
        simpa using this
      exact ⟨le_refl _, fun _ => rfl, fun h => absurd h hne⟩
    | some n₀ =>
      have hn₀ : n₀.id = noteId := by
        have := List.find?_some hfind
        simpa using this
      unfold handleUpdateNote
      rw [List.forall₂_map_right_iff, List.forall₂_same]
      intro m hm
      by_cases hmid : m.id = noteId
      · have hmn : m = n₀ := find_unique_by_id notes noteId n₀ m hnd hfind hm hmid
        subst hmn
        rw [if_pos (by simp [hmid, hn₀])]
        refine ⟨by simp, fun h => absurd hmid h, fun _ => rfl⟩
      · rw [if_neg (by simp [hn₀]; exact hmid)]
        exact ⟨le_refl _, fun _ => rfl, fun h => absurd h hmid⟩
  · unfold handleRestoreVersion
    cases hfind : notes.find? (fun n => n.id = noteId) with
    | none =>
      rw [List.forall₂_same]
      intro m hm
      have hne : ¬ m.id = noteId := by
        have := List.find?_eq_none.mp hfind m hm
        simpa using this
      exact ⟨rfl, fun _ => rfl, fun h => absurd h hne⟩
    | some n₀ =>
      have hn₀ : n₀.id = noteId := by
        have := List.find?_some hfind
        simpa using this
      unfold handleUpdateNote
      rw [List.forall₂_map_right_iff, List.forall₂_same]
      intro m hm
      by_cases hmid : m.id = noteId
      · have hmn : m = n₀ := find_unique_by_id notes noteId n₀ m hnd hfind hm hmid
        subst hmn
        rw [if_pos (by simp [hmid, hn₀])]
        refine ⟨rfl, fun h => absurd hmid h, fun _ => rfl⟩
      · rw [if_neg (by simp [hn₀]; exact hmid)]
        exact ⟨rfl, fun _ => rfl, fun h => absurd h hmid⟩

/-- C2 witness at a concrete two-note store with distinct ids. -/
theorem c2_witness :
    (([noteA, noteB].map Note.id).Nodup) ∧
    (List.Forall₂ (fun m m' =>
        m.versions.length ≤ m'.versions.length ∧
        (m.id ≠ str "1" → m' = m) ∧
        (m.id = str "1" →
          m' = { m with
                   versions := m.versions ++ [⟨m.content, 5, str "v1"⟩] }))
      [noteA, noteB] (handleSaveVersion [noteA, noteB] (str "1") (str "v1") 5) ∧
     List.Forall₂ (fun m m' =>
        m'.versions = m.versions ∧
        (m.id ≠ str "1" → m' = m) ∧
        (m.id = str "1" → m' = { m with content := str "old" }))
      [noteA, noteB]
      (handleRestoreVersion [noteA, noteB] (str "1") ⟨str "old", 3, str "d"⟩)) :=
  ⟨by decide,
    c2_versions_append_only [noteA, noteB] (str "1") (str "v1") 5
      ⟨str "old", 3, str "d"⟩ (by decide)⟩

/-- Unfolding of the pairwise check over a cons cell. -/
theorem pairwiseB_cons (P : Char → Char → Bool) (a : Char) (l : List Char) :
    pairwiseB P (a :: l) = true ↔
      (∀ b, l.head? = some b → P a b = true) ∧ pairwiseB P l = true := by
  cases l with
  | nil => simp [pairwiseB]
  | cons b t =>
    simp only [pairwiseB, Bool.and_eq_true, List.head?_cons]
    constructor
    · rintro ⟨h1, h2⟩
      exact ⟨fun b' hb => by injection hb with hb; rw [← hb]; exact h1, h2⟩
    · rintro ⟨h1, h2⟩
      exact ⟨h1 b rfl, h2⟩

/-- The pairwise check only looks at adjacent pairs, so it survives
dropping a prefix by dropWhile. -/
theorem pairwiseB_dropWhile (P : Char → Char → Bool) (p : Char → Bool) :
    ∀ l, pairwiseB P l = true → pairwiseB P (l.dropWhile p) = true
  | [], _ => rfl
  | c :: cs, h => by
    have h2 : pairwiseB P cs = true := ((pairwiseB_cons P c cs).mp h).2
    rw [List.dropWhile_cons]
    by_cases hc : p c = true
    · rw [if_pos hc]
      exact pairwiseB_dropWhile P p cs h2
    · rw [if_neg hc]
      exact h

/-- The head survives trimRight whenever the result is non-empty. -/
theorem trimRight_head :
    ∀ l x xs, trimRight l = x :: xs → l.head? = some x
  | [], x, xs, h => by simp [trimRight] at h
  | c :: cs, x, xs, h => by
    simp only [trimRight] at h
    cases htr : trimRight cs with
    | nil =>
      rw [htr] at h
      by_cases hc : isWs c = true
      · simp [hc] at h
      · simp [hc] at h
        rw [List.head?_cons, h.1]
    | cons y ys =>
      rw [htr] at h
      injection h with h1 h2
      rw [List.head?_cons]
      exact congrArg some h1

/-- The pairwise check survives trimming trailing characters. -/
theorem pairwiseB_trimRight (P : Char → Char → Bool) :
    ∀ l, pairwiseB P l = true → pairwiseB P (trimRight l) = true
  | [], _ => rfl
  | c :: cs, h => by
    obtain ⟨h1, h2⟩ := (pairwiseB_cons P c cs).mp h
    have ih := pairwiseB_trimRight P cs h2
    simp only [trimRight]
    cases htr : trimRight cs with
    | nil =>
      by_cases hc : isWs c = true
      · simp [hc, pairwiseB]
      · simp [hc, pairwiseB]
    | cons y ys =>
      rw [htr] at ih
      refine (pairwiseB_cons P c (y :: ys)).mpr ⟨?_, ih⟩
      intro b hb
      rw [List.head?_cons] at hb
      injection hb with hb
      subst hb
      exact h1 y (trimRight_head cs y ys htr)

/-- A punctuation character is never whitespace. -/
theorem isPunct_not_ws (c : Char) (h : isPunct c = true) : isWs c = false := by
  simp only [isPunct, Bool.or_eq_true, decide_eq_true_eq] at h
  rcases h with ((h | h) | h) | h <;> subst h <;> decide

/-- The collapsed text has no adjacent whitespace, and its head is
whitespace only by being the single space of a collapsed run. -/
theorem collapseWs_good (l : List Char) :
    noAdjWs (collapseWs l) = true ∧
    (headIsWs (collapseWs l) = true → headIsSpace (collapseWs l) = true) := by
  unfold noAdjWs
  induction l with
  | nil => exact ⟨rfl, fun h => by simp [collapseWs, headIsWs] at h⟩
  | cons c cs ih =>
    obtain ⟨ih1, ih2⟩ := ih
    simp only [collapseWs]
    by_cases hc : isWs c = true
    · rw [if_pos hc]
      by_cases hh : headIsSpace (collapseWs cs) = true
      · rw [if_pos hh]
        exact ⟨ih1, fun _ => hh⟩
      · rw [if_neg hh]
        have hw : headIsWs (collapseWs cs) = false := by
          cases h : headIsWs (collapseWs cs)
          · rfl
          · exact absurd (ih2 h) hh
        constructor
        · rw [pairwiseB_cons]
          refine ⟨?_, ih1⟩
          intro b hb
          have hbw : isWs b = false := by
            cases hcc : collapseWs cs with
            | nil => rw [hcc] at hb; simp at hb
            | cons z t =>
              rw [hcc] at hb
              rw [List.head?_cons] at hb
              injection hb with hb
              subst hb
              rw [hcc] at hw
              simpa [headIsWs] using hw
          simp [hbw]
        · intro _
          simp [headIsSpace]
    · rw [if_neg hc]
      have hc' : isWs c = false := by
        cases hx : isWs c
        · rfl
        · exact absurd hx hc
      constructor
      · rw [pairwiseB_cons]
        exact ⟨fun b _ => by simp [hc'], ih1⟩
      · intro h
        simp [headIsWs, hc'] at h

/-- The second pass never changes the first character of the text. -/
theorem head?_spaceAfterPunct : ∀ l, (spaceAfterPunct l).head? = l.head?
  | [] => rfl
  | [c] => rfl
  | c :: d :: rest => by
    by_cases hp : (isPunct c && !isWs d) = true
    · simp [spaceAfterPunct, hp]
    · simp [spaceAfterPunct, hp]

/-- Inserting a space between punctuation and a following non-whitespace
character cannot create adjacent whitespace. -/
theorem noAdjWs_spaceAfterPunct :
    ∀ l, noAdjWs l = true → noAdjWs (spaceAfterPunct l) = true
  | [], _ => rfl
  | [_], _ => rfl
  | c :: d :: rest, h => by
    unfold noAdjWs at h ⊢
    obtain ⟨h1, h2⟩ := (pairwiseB_cons _ c (d :: rest)).mp h
    have h3 := ((pairwiseB_cons _ d rest).mp h2).2
    by_cases hp : (isPunct c && !isWs d) = true
    · have hp' := hp
      simp only [Bool.and_eq_true] at hp'
      obtain ⟨hpc, hpd⟩ := hp'
      have hcw : isWs c = false := isPunct_not_ws c hpc
      have hdw : isWs d = false := by simpa using hpd
      have ih := noAdjWs_spaceAfterPunct rest h3
      simp only [spaceAfterPunct]
      rw [if_pos hp]
      rw [pairwiseB_cons]
      refine ⟨fun b _ => by simp [hcw], ?_⟩
      rw [pairwiseB_cons]
      refine ⟨?_, ?_⟩
      · intro b hb
        rw [List.head?_cons] at hb
        injection hb with hb
        subst hb
        simp [hdw]
      · rw [pairwiseB_cons]
        exact ⟨fun b _ => by simp [hdw], ih⟩
    · have ih := noAdjWs_spaceAfterPunct (d :: rest) h2
      simp only [spaceAfterPunct]
      rw [if_neg hp]
      rw [pairwiseB_cons]
      refine ⟨?_, ih⟩
      intro b hb
      rw [head?_spaceAfterPunct (d :: rest), List.head?_cons] at hb
      injection hb with hb
      subst hb
      exact h1 d rfl

/-- The third pass keeps a non-whitespace head non-whitespace. -/
theorem headIsWs_strip :
    ∀ l, headIsWs l = false → headIsWs (stripWsBeforePunct l) = false
  | [], _ => rfl
  | c :: cs, h => by
    have hc : isWs c = false := by simpa [headIsWs] using h
    simp only [stripWsBeforePunct]
    rw [if_neg (by simp [hc])]
    simpa [headIsWs] using hc

/-- Deleting whitespace runs in front of punctuation cannot create
adjacent whitespace. -/
theorem noAdjWs_strip :
    ∀ l, noAdjWs l = true → noAdjWs (stripWsBeforePunct l) = true
  | [], _ => rfl
  | c :: cs, h => by
    unfold noAdjWs at h ⊢
    obtain ⟨h1, h2⟩ := (pairwiseB_cons _ c cs).mp h
    have ih := noAdjWs_strip cs h2
    unfold noAdjWs at ih
    simp only [stripWsBeforePunct]
    by_cases hc : isWs c = true
    · rw [if_pos hc]
      by_cases hpr : headIsPunct (stripWsBeforePunct cs) = true
      · rw [if_pos hpr]
        exact ih
      · rw [if_neg hpr]
        rw [pairwiseB_cons]
        refine ⟨?_, ih⟩
        intro b hb
        have hcsh : headIsWs cs = false := by
          cases cs with
          | nil => rfl
          | cons d t =>
            have hcd := h1 d rfl
            rw [hc] at hcd
            simpa [headIsWs] using hcd
        have hsh : headIsWs (stripWsBeforePunct cs) = false :=
          headIsWs_strip cs hcsh
        have hbw : isWs b = false := by
          cases hs : stripWsBeforePunct cs with
          | nil => rw [hs] at hb; simp at hb
          | cons z t =>
            rw [hs] at hb
            rw [List.head?_cons] at hb
            injection hb with hb
            subst hb
            rw [hs] at hsh
            simpa [headIsWs] using hsh
        simp [hbw]
    · rw [if_neg hc]
      have hc' : isWs c = false := by
        cases hx : isWs c
        · rfl
        · exact absurd hx hc
      rw [pairwiseB_cons]
      exact ⟨fun b _ => by simp [hc'], ih⟩

/-- After the third pass no whitespace character stands immediately before
a punctuation character, whatever the input was. -/
theorem noWsBeforePunct_strip :
    ∀ l, noWsBeforePunct (stripWsBeforePunct l) = true
  | [] => rfl
  | c :: cs => by
    have ih := noWsBeforePunct_strip cs
    unfold noWsBeforePunct at ih ⊢
    simp only [stripWsBeforePunct]
    by_cases hc : isWs c = true
    · rw [if_pos hc]
      by_cases hpr : headIsPunct (stripWsBeforePunct cs) = true
      · rw [if_pos hpr]
        exact ih
      · rw [if_neg hpr]
        rw [pairwiseB_cons]
        refine ⟨?_, ih⟩
        intro b hb
        have hbp : isPunct b = false := by
          cases hs : stripWsBeforePunct cs with
          | nil => rw [hs] at hb; simp at hb
          | cons z t =>
            rw [hs] at hb
            rw [List.head?_cons] at hb
            injection hb with hb
            subst hb
            rw [hs] at hpr
            simpa [headIsPunct] using hpr
        simp [hbp]
    · rw [if_neg hc]
      have hc' : isWs c = false := by
        cases hx : isWs c
        · rfl
        · exact absurd hx hc
      rw [pairwiseB_cons]
      exact ⟨fun b _ => by simp [hc'], ih⟩

/-- The cleaned delta never contains two adjacent whitespace
characters. -/
theorem noAdjWs_cleanText (l : List Char) : noAdjWs (cleanText l) = true := by
  unfold cleanText trimWs noAdjWs
  apply pairwiseB_trimRight
  apply pairwiseB_dropWhile
  exact noAdjWs_strip _ (noAdjWs_spaceAfterPunct _ (collapseWs_good l).1)

/-- The cleaned delta never contains whitespace immediately before a
punctuation character. -/
theorem noWsBeforePunct_cleanText (l : List Char) :
    noWsBeforePunct (cleanText l) = true := by
  unfold cleanText trimWs noWsBeforePunct
  apply pairwiseB_trimRight
  apply pairwiseB_dropWhile
  exact noWsBeforePunct_strip _

/-- C6 counterexample: cleanText does not ensure a space after every
punctuation character (the scan resumes after a match, so the bang after
the question mark gets no following space), and the separating space is
prepended whenever the destination is non-empty even if it already ends in
whitespace, yielding a double space. -/
theorem c6_counterexample :
    cleanText (str "a?!b") = str "a?!b" ∧
    handleTranscriptionUpdate ⟨[], str "hi "⟩ (str "x")
      = ⟨str "x", str "hi  x"⟩ := by
  constructor
  · decide
  · decide

/-- C6 amended: normalization collapses whitespace runs (the cleaned delta
never holds two adjacent whitespace characters), deletes whitespace before
punctuation (never a whitespace immediately before punctuation in the
cleaned delta), and inserts a space between a punctuation character and an
immediately following non-whitespace in one left-to-right pass; a single
separating space is prepended whenever the destination document is
non-empty, regardless of its final character; the scenario hello then
hello world into an empty document yields exactly hello world. -/
theorem c6_normalization_behavior (st : MergerState) (t : List Char)
    (h1 : st.content ≠ []) (h2 : t ≠ st.prevTranscript) :
    handleTranscriptionUpdate
        (handleTranscriptionUpdate ⟨[], []⟩ (str "hello")) (str "hello world")
      = ⟨str "hello world", str "hello world"⟩ ∧
    (handleTranscriptionUpdate st t).content
      = st.content ++ [' '] ++ cleanText (t.drop st.prevTranscript.length) ∧
    (∀ l, noAdjWs (cleanText l) = true) ∧
    (∀ l, noWsBeforePunct (cleanText l) = true) := by
  refine ⟨by decide, ?_, noAdjWs_cleanText, noWsBeforePunct_cleanText⟩
  simp [handleTranscriptionUpdate, h2, h1]

/-- C6 witness at a concrete non-empty document state. -/
theorem c6_witness :
    mergeSt.content ≠ [] ∧
    str "hello world" ≠ mergeSt.prevTranscript ∧
    (handleTranscriptionUpdate
        (handleTranscriptionUpdate ⟨[], []⟩ (str "hello")) (str "hello world")
      = ⟨str "hello world", str "hello world"⟩ ∧
     (handleTranscriptionUpdate mergeSt (str "hello world")).content
       = mergeSt.content ++ [' ']
           ++ cleanText ((str "hello world").drop mergeSt.prevTranscript.length) ∧
     (∀ l, noAdjWs (cleanText l) = true) ∧
     (∀ l, noWsBeforePunct (cleanText l) = true)) :=
  ⟨by decide, by decide,
    c6_normalization_behavior mergeSt (str "hello world")
      (by decide) (by decide)⟩

/-- The boolean prefix test agrees with the prefix relation. -/
theorem isPrefixB_correct : ∀ (n h : List Char), isPrefixB n h = true ↔ n <+: h
  | [], h => by
    simp only [isPrefixB]
    exact ⟨fun _ => ⟨h, rfl⟩, fun _ => trivial⟩
  | a :: as, [] => by
    constructor
    · intro hx
      simp [isPrefixB] at hx
    · rintro ⟨t, ht⟩
      simp at ht
  | a :: as, b :: bs => by
    rw [List.cons_prefix_cons]
    simp only [isPrefixB, Bool.and_eq_true, decide_eq_true_eq]
    rw [isPrefixB_correct as bs]

/-- The boolean containment test agrees with the contiguous-substring
relation, matching the JS includes method. -/
theorem containsB_correct : ∀ (hay n : List Char), containsB hay n = true ↔ n <:+: hay
  | [], n => by
    cases n with
    | nil =>
      simp only [containsB, List.isEmpty_nil]
      exact ⟨fun _ => ⟨[], [], rfl⟩, fun _ => trivial⟩
    | cons c t =>
      constructor
      · intro hx
        simp [containsB] at hx
      · rintro ⟨s, u, hsu⟩
        simp at hsu
  | c :: t, n => by
    rw [List.infix_cons_iff]
    simp only [containsB, Bool.or_eq_true]
    rw [isPrefixB_correct n (c :: t), containsB_correct t n]

/-- C7 counterexample: the search matches against the raw stored content,
not the plain text: a note whose serialized content is paragraph markup is
returned for the query p although its plain text (extracted with the tag
stripping the editor itself uses for word counts), its title and its tags
all lack the query. -/
theorem c7_counterexample :
    filteredNotes [noteHtml] (str "p") = [noteHtml] ∧
    containsB (lowerCase (stripHtml (str "<p>hi</p>"))) (lowerCase (str "p"))
      = false ∧
    containsB (lowerCase noteHtml.title) (lowerCase (str "p")) = false ∧
    noteHtml.tags = [] := by
  refine ⟨by decide, ?_, by decide, by decide⟩
  have h : stripHtml (str "<p>hi</p>") = str " hi " := by
    simp [stripHtml, afterTagClose, str]
  rw [h]
  decide

/-- C7 amended: a note is returned by the search exactly when the
lower-cased query occurs as a contiguous substring of the lower-cased
title, the lower-cased raw stored content (serialized rich text included),
or some lower-cased tag; the query meet matches the note tagged meeting
and not the one tagged memo. -/
theorem c7_search_characterization (notes : List Note) (q : List Char)
    (n : Note) :
    (n ∈ filteredNotes notes q ↔
      n ∈ notes ∧
        (lowerCase q <:+: lowerCase n.title ∨
         lowerCase q <:+: lowerCase n.content ∨
         ∃ t ∈ n.tags, lowerCase q <:+: lowerCase t)) ∧
    filteredNotes [noteMeeting, noteMemo] (str "meet") = [noteMeeting] := by
  constructor
  · simp only [filteredNotes, List.mem_filter]
    apply and_congr_right
    intro _
    simp only [noteMatches, Bool.or_eq_true, List.any_eq_true]
    rw [containsB_correct, containsB_correct, or_assoc]
    apply or_congr Iff.rfl
    apply or_congr Iff.rfl
    exact exists_congr fun t =>
      and_congr_right fun _ => containsB_correct (lowerCase t) (lowerCase q)
  · decide
